import Mathlib

/-!
# Verification of the gym-saturation episodic core

The repository exposes saturation-style automated theorem provers as
Gymnasium environments.  The Python implementation of the core
(`SaturationEnv`, its `ProofState` bookkeeping, and the relay broker used
for the iProver backend) is not part of the source snapshot — only its
documentation (`doc/source/environments/saturation-env.rst`,
`doc/source/what-is-going-on.rst`), the TAPAS/TABLEAUX paper
(`tableaux2023-paper/gym-saturation.tex`) and packaging files are.  The
definitions below are therefore modelled from the specification and those
documents, and the theorems settle the specification claims against this
model.
-/

namespace GymSaturation

/-! ## Definitions: the data model and operations, modelled from the spec -/

/-- Modelled from the spec: the missing `Clause` Python data class
(spec §3 and `gym-saturation.tex`, "Clause class"): `label` (unique string
within an episode), `literals` (formatted string, opaque beyond "empty
means contradiction"), `role` (provenance tag), `inference_rule` (name, or
"input" for problem clauses), `inference_parents` (ordered sequence of
labels), `birth_step` (0 for input clauses, else the producing step index)
and `processed` (boolean, starts false). -/
structure Clause where
  label : String
  literals : String
  role : String
  inference_rule : String
  inference_parents : List String
  birth_step : Nat
  processed : Bool
  deriving Repr, DecidableEq

/-- Modelled from the spec: the clause wire record shared by both backends
(spec §6): `{label, inference_rule, inference_parents, literals, role}`;
`birth_step` and `processed` are assigned by the environment itself. -/
structure WireClause where
  label : String
  literals : String
  role : String
  inference_rule : String
  inference_parents : List String
  deriving Repr, DecidableEq

/-- Modelled from the spec: `ProofState` (spec §3), an ordered sequence of
clauses (insertion order = arrival order, position = action-space index)
together with the current step count used to stamp `birth_step`. -/
structure ProofState where
  clauses : List Clause
  step_count : Nat
  deriving Repr, DecidableEq

/-- Modelled from the spec: the error taxonomy relevant to the episodic
engine (spec §7): `InvalidAction` for an out-of-mask index, and the fatal
invariant violation raised by `append` on a duplicate label (spec §4.1). -/
inductive EnvError where
  | invalidAction
  | duplicateLabel
  deriving Repr, DecidableEq

/-- Modelled from the spec: a clause with zero literals — the empty clause;
the literals string is opaque to the core "beyond `empty means
contradiction`" (spec §3). -/
def isEmptyClause (c : Clause) : Bool :=
  c.literals = ""

/-- The labels currently present in a list of clauses. -/
def labels (cs : List Clause) : List String :=
  cs.map Clause.label

/-- Modelled from the spec: `action_mask()` (spec §4.1) — a boolean vector
of length `n` (the action-space size `max_clauses`) where position `i` is
true iff index `i` exists and is unprocessed. -/
def actionMask (cs : List Clause) (n : Nat) : List Bool :=
  (List.range n).map fun i =>
    match cs[i]? with
    | some c => !c.processed
    | none => false

/-- Modelled from the spec: `append(clause)` (spec §4.1) — assigns
`birth_step` = current step count, starts the clause unprocessed, and
rejects a duplicate label as a fatal invariant violation rather than
inserting it. -/
def appendClause (st : ProofState) (w : WireClause) : Except EnvError ProofState :=
  if w.label ∈ labels st.clauses then
    .error .duplicateLabel
  else
    .ok { st with
          clauses := st.clauses ++
            [{ label := w.label, literals := w.literals, role := w.role,
               inference_rule := w.inference_rule,
               inference_parents := w.inference_parents,
               birth_step := st.step_count, processed := false }] }

/-- Appending a whole increment of new clauses, one `appendClause` at a
time; the first duplicate label aborts with the fatal error. -/
def appendAll (st : ProofState) (ws : List WireClause) : Except EnvError ProofState :=
  ws.foldlM appendClause st

/-- Modelled from the spec: `mark_processed(index)` (spec §4.1) — flips the
`processed` flag of the clause at the given position; no reordering, no
deletion. -/
def markProcessed (cs : List Clause) (i : Nat) : List Clause :=
  match cs[i]? with
  | some c => cs.set i { c with processed := true }
  | none => cs

/-- True iff some clause in the state is the empty clause. -/
def hasEmptyClause (cs : List Clause) : Bool :=
  cs.any isEmptyClause

/-- True iff no unprocessed clause remains. -/
def allProcessed (cs : List Clause) : Bool :=
  cs.all (·.processed)

/-- Modelled from the spec: the increment received from the backend during
one `step`: the newly derived clauses, plus whether the backend's bounded
wait timed out (spec §4.2 `awaitIncrement`: "exceeding `timeout` returns a
truncation signal, not an error"). -/
structure Increment where
  newClauses : List WireClause
  timeout : Bool
  deriving Repr, DecidableEq

/-- Modelled from the spec: the observation dictionary (spec §6):
`{action_mask : bool[n], clauses : Clause[]}` (`real_obs`). -/
structure Observation where
  action_mask : List Bool
  real_obs : List Clause
  deriving Repr, DecidableEq

/-- The full result of a successful `step` call: the post-state and the
Gymnasium 4-tuple `(observation, reward, terminated, truncated)`. -/
structure StepResult where
  state : ProofState
  observation : Observation
  reward : ℚ
  terminated : Bool
  truncated : Bool
  deriving Repr, DecidableEq

/-- Modelled from the spec: `Orchestrator.step(action)` (spec §4.4).
Precondition: `action_mask[action]` must be true, else `InvalidAction`
without mutating state.  Otherwise: forwards the selection (the increment
is this call's backend exchange), appends new clauses stamped with the new
step count, marks the selected clause processed, and computes the signals:
`terminated` iff a zero-literal clause now exists or no unprocessed clause
remains; `truncated` iff the total clause count exceeds `max_clauses`
(evaluated after appending this step's increment) or the backend signalled
a timeout; `reward` = 1.0 iff terminated this step, else 0.0.
With the increment already appended (`st2`), `finishStep` marks the
selected clause processed and computes the observation, reward,
termination and truncation signals from the resulting state. -/
def finishStep (maxClauses action : Nat) (inc : Increment) (st2 : ProofState) :
    StepResult :=
  let cs := markProcessed st2.clauses action
  let term := hasEmptyClause cs || allProcessed cs
  { state := { st2 with clauses := cs },
    observation := { action_mask := actionMask cs maxClauses, real_obs := cs },
    reward := if term then 1 else 0,
    terminated := term,
    truncated := decide (cs.length > maxClauses) || inc.timeout }

/-- Modelled from the spec: see `finishStep`; `step` checks the
`action_mask` precondition, raising `InvalidAction` before any mutation,
then appends the backend increment and finishes via `finishStep`. -/
def step (maxClauses : Nat) (st : ProofState) (action : Nat) (inc : Increment) :
    Except EnvError StepResult :=
  if (actionMask st.clauses maxClauses).getD action false = false then
    .error .invalidAction
  else
    (appendAll { st with step_count := st.step_count + 1 } inc.newClauses).map
      (finishStep maxClauses action inc)

/-- Modelled from the spec: `Orchestrator.reset(task)` (spec §4.4) — clears
`ProofState`, ingests the initial clause batch (birth step 0, all
unprocessed) and returns the state with its observation. -/
def reset (maxClauses : Nat) (initial : List WireClause) :
    Except EnvError (ProofState × Observation) :=
  (appendAll { clauses := [], step_count := 0 } initial).map fun st =>
    (st, { action_mask := actionMask st.clauses maxClauses, real_obs := st.clauses })

/-- The proof state observed by the caller after a `step` call: an
`InvalidAction` error is raised before any mutation, so the state is the
one from before the call. -/
def stateAfter (maxClauses : Nat) (st : ProofState) (action : Nat) (inc : Increment) :
    ProofState :=
  match step maxClauses st action inc with
  | .error _ => st
  | .ok r => r.state

/-- The identity fields of a clause (everything except `processed`) agree
between `c` (the earlier snapshot) and `c'` (the later one). -/
def SameCore (c c' : Clause) : Prop :=
  c'.label = c.label ∧ c'.literals = c.literals ∧ c'.role = c.role ∧
  c'.inference_rule = c.inference_rule ∧
  c'.inference_parents = c.inference_parents ∧ c'.birth_step = c.birth_step

/-- The append-only evolution relation of spec §3: once appended, a
clause's position never changes and the clause is never removed, its
identity fields are frozen, `processed` only ever transitions false→true,
and the clause count is non-decreasing. -/
def Extends (cs cs' : List Clause) : Prop :=
  cs.length ≤ cs'.length ∧
  ∀ (i : Nat) (c : Clause), cs[i]? = some c →
    ∃ c' : Clause, cs'[i]? = some c' ∧ SameCore c c' ∧
      (c.processed = true → c'.processed = true)

/-- The states reachable from `st` by a sequence of successful `step`
calls within one episode (capacity `m`). -/
inductive Reachable (m : Nat) : ProofState → ProofState → Prop where
  | refl (st : ProofState) : Reachable m st st
  | tail {st st' : ProofState} {a : Nat} {inc : Increment} {r : StepResult} :
      Reachable m st st' → step m st' a inc = Except.ok r →
      Reachable m st r.state

/-- The number of clauses currently marked processed. -/
def processedCount (cs : List Clause) : Nat :=
  cs.countP (·.processed)

/-- Runs of successful `step` calls during which the episode has neither
terminated nor been truncated: `RunNonstop m st st' k` says `st'` is
reached from `st` by `k` such steps. -/
inductive RunNonstop (m : Nat) : ProofState → ProofState → Nat → Prop where
  | refl (st : ProofState) : RunNonstop m st st 0
  | tail {st st' : ProofState} {k a : Nat} {inc : Increment} {r : StepResult} :
      RunNonstop m st st' k → step m st' a inc = Except.ok r →
      r.terminated = false → r.truncated = false →
      RunNonstop m st r.state (k + 1)

/-- Modelled from the spec: the framed request message the prover-initiated
connection sends (spec §6): `{clauses, valid_action_indices}`. -/
structure BrokerRequest where
  clauses : List WireClause
  valid_action_indices : List Nat
  deriving Repr, DecidableEq

/-- Modelled from the spec: the framed response message (spec §6):
`{action_index}`. -/
structure BrokerResponse where
  action_index : Nat
  deriving Repr, DecidableEq

/-- Modelled from the spec: `ProtocolViolation` — out-of-order broker
messages (spec §7), raised when strict request/response alternation is
broken. -/
inductive BrokerError where
  | protocolViolation
  deriving Repr, DecidableEq

/-- The wire events on the accepted connection as seen by the broker: a
framed request decoded by the reader task, or a response sent back by the
writer task. -/
inductive BrokerEvent where
  | recv (q : BrokerRequest)
  | send (a : BrokerResponse)
  deriving Repr, DecidableEq

/-- Modelled from the spec: the `RelayBroker`'s single-slot pending-request
handoff (spec §4.3): it holds the request whose response has not yet been
sent on the wire — at most one item, encoding the strictly-alternating
protocol structurally. -/
structure BrokerState where
  pending : Option BrokerRequest
  deriving Repr, DecidableEq

/-- Modelled from the spec: the broker's reaction to one wire event.
Receiving a second request before the prior response was sent is a
`ProtocolViolation` (spec §4.3); a response with no pending request also
breaks the required request/response alternation (spec §6: "messages must
alternate request/response with no pipelining"). -/
def brokerStep : BrokerState → BrokerEvent → Except BrokerError BrokerState
  | ⟨some _⟩, .recv _ => .error .protocolViolation
  | ⟨none⟩, .recv q => .ok ⟨some q⟩
  | ⟨some _⟩, .send _ => .ok ⟨none⟩
  | ⟨none⟩, .send _ => .error .protocolViolation

/-- Processing a whole trace of wire events. -/
def brokerRun (st : BrokerState) (evs : List BrokerEvent) :
    Except BrokerError BrokerState :=
  evs.foldlM brokerStep st

/-- Number of requests received in a trace. -/
def countRecv (evs : List BrokerEvent) : Nat :=
  evs.countP fun e => match e with | .recv _ => true | .send _ => false

/-- Number of responses sent in a trace. -/
def countSend (evs : List BrokerEvent) : Nat :=
  evs.countP fun e => match e with | .recv _ => false | .send _ => true

/-- Modelled from the spec: one line of the `render()` dump — the clause in
TPTP style, `cnf(label,role,literals).` (spec §4.1: a deterministic
textual dump in insertion order; `gym-saturation.tex`: render returns the
TPTP formatted string). -/
def renderLineChars (c : Clause) : List Char :=
  "cnf(".data ++
    (c.label.data ++ ',' ::
      (c.role.data ++ ',' :: (c.literals.data ++ ").".data)))

/-- Modelled from the spec: the full `render()` dump, one line per clause
in insertion order, each line terminated by a newline. -/
def renderChars (cs : List Clause) : List Char :=
  (cs.map fun c => renderLineChars c ++ ['\n']).flatten

/-- `render('ansi')`: the textual dump as a string (spec §4.4). -/
def render (st : ProofState) : String :=
  String.mk (renderChars st.clauses)

/-- Split at the first occurrence of `sep`, if any. -/
def splitFirst (sep : Char) : List Char → Option (List Char × List Char)
  | [] => none
  | c :: cs =>
    if c = sep then some ([], cs)
    else (splitFirst sep cs).map fun p => (c :: p.1, p.2)

/-- Remove a leading marker, if present. -/
def stripPre (p l : List Char) : Option (List Char) :=
  if l.take p.length = p then some (l.drop p.length) else none

/-- Remove a trailing marker, if present. -/
def stripSuf (s l : List Char) : Option (List Char) :=
  if s.length ≤ l.length ∧ l.drop (l.length - s.length) = s then
    some (l.take (l.length - s.length))
  else none

/-- Re-parse one rendered line into its `(label, literals, role)` triple:
strip the `cnf(` marker and the `).` terminator, then split at the first
two commas (labels and roles never contain a comma, literals may). -/
def parseLine (l : List Char) : Option (String × String × String) := do
  let r1 ← stripPre "cnf(".data l
  let r2 ← stripSuf ").".data r1
  let (lab, r3) ← splitFirst ',' r2
  let (role, lits) ← splitFirst ',' r3
  pure (String.mk lab, String.mk lits, String.mk role)

/-- Split a character stream into newline-separated segments. -/
def splitLines : List Char → List (List Char)
  | [] => [[]]
  | c :: cs =>
    match splitLines cs with
    | [] => [[c]]
    | l :: ls => if c = '\n' then [] :: l :: ls else (c :: l) :: ls

/-- Re-parse every rendered line. -/
def parseLines : List (List Char) → Option (List (String × String × String))
  | [] => some []
  | l :: ls => do
    let t ← parseLine l
    let ts ← parseLines ls
    pure (t :: ts)

/-- Re-parsing a rendered dump: split into lines (dropping the empty
segment after the final newline) and parse each line. -/
def parse (s : String) : Option (List (String × String × String)) :=
  parseLines (splitLines s.data).dropLast

/-- The character-set discipline the documented observation space imposes
on clause fields (`ALPHANUMERIC_WITH_UNDERSCORE` labels and roles contain
no comma and no newline; literals contain no newline). -/
def RenderSafe (c : Clause) : Prop :=
  ',' ∉ c.label.data ∧ ',' ∉ c.role.data ∧ '\n' ∉ c.label.data ∧
  '\n' ∉ c.role.data ∧ '\n' ∉ c.literals.data

instance (c : Clause) : Decidable (RenderSafe c) := by
  unfold RenderSafe
  infer_instance

/-- A sample unprocessed input clause. -/
def cA : Clause :=
  { label := "c0", literals := "p(X)", role := "axiom",
    inference_rule := "input", inference_parents := [], birth_step := 0,
    processed := false }

/-- A second sample unprocessed input clause. -/
def cB : Clause :=
  { label := "c1", literals := "q(X)", role := "axiom",
    inference_rule := "input", inference_parents := [], birth_step := 0,
    processed := false }

/-- A sample clause already marked processed. -/
def cP : Clause :=
  { label := "c2", literals := "r(X)", role := "axiom",
    inference_rule := "input", inference_parents := [], birth_step := 0,
    processed := true }

/-- A sample newly derived clause as it appears on the wire. -/
def wD : WireClause :=
  { label := "d0", literals := "s(X)", role := "lemma",
    inference_rule := "resolution", inference_parents := ["c0", "c1"] }

/-- The same derived clause once appended at step 1. -/
def dNew : Clause :=
  { label := "d0", literals := "s(X)", role := "lemma",
    inference_rule := "resolution", inference_parents := ["c0", "c1"],
    birth_step := 1, processed := false }

/-- The wire form of the sample input clause, for `reset`. -/
def wInit : WireClause :=
  { label := "c0", literals := "p(X)", role := "axiom",
    inference_rule := "input", inference_parents := [] }

/-- A wire clause whose label duplicates the sample input clause. -/
def wDup : WireClause :=
  { label := "c0", literals := "t(X)", role := "lemma",
    inference_rule := "resolution", inference_parents := ["c0"] }

/-- A sample one-clause proof state, as produced by `reset` on `wInit`. -/
def sampleSt : ProofState :=
  { clauses := [cA], step_count := 0 }

/-- The observation `reset 3 [wInit]` returns. -/
def resetObs : Observation :=
  { action_mask := actionMask sampleSt.clauses 3, real_obs := sampleSt.clauses }

/-- A sample backend increment: one derived clause, no timeout. -/
def sampleInc : Increment :=
  { newClauses := [wD], timeout := false }

/-- The result of `step 3 sampleSt 0 sampleInc`. -/
def sampleRes : StepResult :=
  finishStep 3 0 sampleInc { clauses := [cA, dNew], step_count := 1 }

/-- A two-clause proof state used to exercise the capacity bound. -/
def truncSt : ProofState :=
  { clauses := [cA, cB], step_count := 0 }

/-- The result of `step 2 truncSt 0 sampleInc` — three clauses against a
capacity of two. -/
def truncRes : StepResult :=
  finishStep 2 0 sampleInc { clauses := [cA, cB, dNew], step_count := 1 }

/-- A proof state whose only clause is already processed. -/
def invSt : ProofState :=
  { clauses := [cP], step_count := 0 }

/-- A sample broker request. -/
def q0 : BrokerRequest :=
  { clauses := [wInit], valid_action_indices := [0] }

/-- A sample broker response. -/
def a0 : BrokerResponse :=
  { action_index := 0 }

/-! ## Theorems -/

theorem step_ok_iff {m a : Nat} {st : ProofState} {inc : Increment} {r : StepResult} :
    step m st a inc = Except.ok r ↔
      (actionMask st.clauses m).getD a false = true ∧
      ∃ st2, appendAll { st with step_count := st.step_count + 1 } inc.newClauses
          = Except.ok st2 ∧ r = finishStep m a inc st2 := by
  unfold step
  cases hmask : (actionMask st.clauses m).getD a false with
  | false => simp [hmask]
  | true =>
    rw [if_neg (by simp)]
    cases happ : appendAll { st with step_count := st.step_count + 1 } inc.newClauses with
    | error e => simp [Except.map]
    | ok st2 =>
      simp only [Except.map, Except.ok.injEq, true_and]
      constructor
      · rintro rfl; exact ⟨st2, rfl, rfl⟩
      · rintro ⟨st2', h1, h2⟩
        cases h1
        exact h2.symm

/-- Position `i` of the action mask is true iff a clause with zero-based
position `i` exists and is unprocessed. -/
theorem actionMask_getElem? {cs : List Clause} {n i : Nat} {b : Bool}
    (h : (actionMask cs n)[i]? = some b) :
    b = true ↔ ∃ c, cs[i]? = some c ∧ c.processed = false := by
  unfold actionMask at h
  rw [List.getElem?_map] at h
  by_cases hi : i < n
  · rw [List.getElem?_range hi] at h
    simp only [Option.map_some'] at h
    cases hc : cs[i]? with
    | none => rw [hc] at h; cases h; simp [hc]
    | some c =>
      rw [hc] at h
      cases h
      cases hp : c.processed <;> simp [hc, hp]
  · have hnone : (List.range n)[i]? = none := by
      rw [List.getElem?_eq_none_iff, List.length_range]
      omega
    rw [hnone] at h
    cases h

/-- C1: for every call to `step`, the returned `terminated` flag is true
iff, after incorporating that step's increment, the proof state contains a
clause with zero literals (the empty clause) or no unprocessed clauses
remain. -/
theorem step_terminated_iff {m a : Nat} {st : ProofState} {inc : Increment}
    {r : StepResult} (h : step m st a inc = Except.ok r) :
    r.terminated = true ↔
      (∃ c ∈ r.state.clauses, c.literals = "") ∨
      (∀ c ∈ r.state.clauses, c.processed = true) := by
  obtain ⟨-, st2, -, rfl⟩ := step_ok_iff.mp h
  simp [finishStep, hasEmptyClause, allProcessed, isEmptyClause,
    List.any_eq_true, List.all_eq_true]

/-- C2: for every call to `step`, the returned reward equals 1.0 iff that
same call returned `terminated = true`, and equals 0.0 otherwise. -/
theorem step_reward_iff {m a : Nat} {st : ProofState} {inc : Increment}
    {r : StepResult} (h : step m st a inc = Except.ok r) :
    (r.reward = 1 ↔ r.terminated = true) ∧
    (r.reward = 0 ↔ r.terminated = false) := by
  obtain ⟨-, st2, -, rfl⟩ := step_ok_iff.mp h
  simp only [finishStep]
  cases hasEmptyClause (markProcessed st2.clauses a)
      || allProcessed (markProcessed st2.clauses a) <;>
    norm_num

/-- C3: at every step of every episode (both the observation returned by
`step` and the one returned by `reset`), the observation's `action_mask`
at position `i` is true iff a clause with zero-based position `i` exists
in the proof state and is currently unprocessed; all other positions are
false. -/
theorem reset_ok_iff {m : Nat} {initial : List WireClause}
    {p : ProofState × Observation} :
    reset m initial = Except.ok p ↔
      ∃ st0, appendAll { clauses := [], step_count := 0 } initial = Except.ok st0 ∧
        p = (st0, { action_mask := actionMask st0.clauses m,
                    real_obs := st0.clauses }) := by
  unfold reset
  cases happ : appendAll { clauses := [], step_count := 0 } initial with
  | error e => simp [Except.map]
  | ok st0 =>
    simp only [Except.map, Except.ok.injEq]
    constructor
    · rintro rfl
      exact ⟨st0, rfl, rfl⟩
    · rintro ⟨st0', h1, h2⟩
      cases h1
      subst h2
      rfl

theorem observation_action_mask_spec (m : Nat) :
    (∀ st a inc r, step m st a inc = Except.ok r → ∀ (i : Nat) (b : Bool),
        r.observation.action_mask[i]? = some b →
        (b = true ↔ ∃ c : Clause, r.state.clauses[i]? = some c ∧
          c.processed = false)) ∧
    (∀ initial p, reset m initial = Except.ok p → ∀ (i : Nat) (b : Bool),
        p.2.action_mask[i]? = some b →
        (b = true ↔ ∃ c : Clause, p.1.clauses[i]? = some c ∧
          c.processed = false)) := by
  constructor
  · intro st a inc r h i b hb
    obtain ⟨-, st2, -, rfl⟩ := step_ok_iff.mp h
    have hb' : (actionMask (markProcessed st2.clauses a) m)[i]? = some b := by
      simpa [finishStep] using hb
    simpa [finishStep] using actionMask_getElem? hb'
  · intro initial p h i b hb
    obtain ⟨st0, -, rfl⟩ := reset_ok_iff.mp h
    exact actionMask_getElem? hb

/-- C5: for every episode state and every action index whose
`action_mask` entry is false, calling `step` with that action raises
`InvalidAction` and leaves the proof state unchanged (in particular its
length is the same before and after the call). -/
theorem step_invalidAction {m a : Nat} {st : ProofState} {inc : Increment}
    (h : (actionMask st.clauses m)[a]? = some false) :
    step m st a inc = Except.error EnvError.invalidAction ∧
    stateAfter m st a inc = st ∧
    (stateAfter m st a inc).clauses.length = st.clauses.length := by
  have hg : (actionMask st.clauses m).getD a false = false := by
    rw [List.getD_eq_getElem?_getD, h]
    rfl
  have hstep : step m st a inc = Except.error EnvError.invalidAction := by
    unfold step
    rw [if_pos hg]
  refine ⟨hstep, ?_, ?_⟩ <;> simp [stateAfter, hstep]

theorem lt_length_of_getElem?_some {α : Type} {l : List α} {i : Nat} {a : α}
    (h : l[i]? = some a) : i < l.length := by
  by_contra hn
  rw [List.getElem?_eq_none (Nat.le_of_not_lt hn)] at h
  cases h

theorem except_bind_ok {α β ε : Type} {x : Except ε α} {f : α → Except ε β} {b : β}
    (h : (x >>= f) = Except.ok b) : ∃ a, x = Except.ok a ∧ f a = Except.ok b := by
  cases x with
  | error e => simp [Bind.bind, Except.bind] at h
  | ok a => exact ⟨a, rfl, by simpa [Bind.bind, Except.bind] using h⟩

theorem Extends.refl (cs : List Clause) : Extends cs cs :=
  ⟨Nat.le_refl _, fun _ c h => ⟨c, h, ⟨rfl, rfl, rfl, rfl, rfl, rfl⟩, fun hp => hp⟩⟩

theorem Extends.trans {cs₁ cs₂ cs₃ : List Clause}
    (h₁ : Extends cs₁ cs₂) (h₂ : Extends cs₂ cs₃) : Extends cs₁ cs₃ := by
  refine ⟨Nat.le_trans h₁.1 h₂.1, fun i c hc => ?_⟩
  obtain ⟨c', hc', hcore, hproc⟩ := h₁.2 i c hc
  obtain ⟨c'', hc'', hcore', hproc'⟩ := h₂.2 i c' hc'
  refine ⟨c'', hc'', ?_, fun hp => hproc' (hproc hp)⟩
  obtain ⟨e1, e2, e3, e4, e5, e6⟩ := hcore
  obtain ⟨f1, f2, f3, f4, f5, f6⟩ := hcore'
  exact ⟨f1.trans e1, f2.trans e2, f3.trans e3, f4.trans e4,
    f5.trans e5, f6.trans e6⟩

theorem appendClause_extends {st st' : ProofState} {w : WireClause}
    (h : appendClause st w = Except.ok st') : Extends st.clauses st'.clauses := by
  unfold appendClause at h
  split at h
  · cases h
  · cases h
    refine ⟨by simp, fun i c hc => ?_⟩
    have hi : i < st.clauses.length := lt_length_of_getElem?_some hc
    exact ⟨c, by rw [List.getElem?_append_left hi]; exact hc,
      ⟨rfl, rfl, rfl, rfl, rfl, rfl⟩, fun hp => hp⟩

theorem appendAll_extends {ws : List WireClause} :
    ∀ {st st' : ProofState}, appendAll st ws = Except.ok st' →
      Extends st.clauses st'.clauses := by
  induction ws with
  | nil =>
    intro st st' h
    rw [appendAll, List.foldlM_nil] at h
    cases h
    exact Extends.refl _
  | cons w ws ih =>
    intro st st' h
    rw [appendAll, List.foldlM_cons] at h
    obtain ⟨st1, hac, hrest⟩ := except_bind_ok h
    exact (appendClause_extends hac).trans (ih hrest)

theorem markProcessed_extends (cs : List Clause) (j : Nat) :
    Extends cs (markProcessed cs j) := by
  unfold markProcessed
  cases hj : cs[j]? with
  | none => exact Extends.refl _
  | some cj =>
    refine ⟨by simp, fun i c hc => ?_⟩
    by_cases hij : j = i
    · subst hij
      have hcj : c = cj := by rw [hj] at hc; cases hc; rfl
      subst hcj
      refine ⟨{ c with processed := true }, ?_,
        ⟨rfl, rfl, rfl, rfl, rfl, rfl⟩, fun _ => rfl⟩
      rw [List.getElem?_set_self (lt_length_of_getElem?_some hj)]
    · exact ⟨c, by rw [List.getElem?_set_ne hij]; exact hc,
        ⟨rfl, rfl, rfl, rfl, rfl, rfl⟩, fun hp => hp⟩

theorem step_extends {m a : Nat} {st : ProofState} {inc : Increment}
    {r : StepResult} (h : step m st a inc = Except.ok r) :
    Extends st.clauses r.state.clauses := by
  obtain ⟨-, st2, happ, rfl⟩ := step_ok_iff.mp h
  exact (appendAll_extends happ).trans (markProcessed_extends st2.clauses a)

/-- C6: across every sequence of operations within an episode, the proof
state is append-only: once appended, a clause's position never changes and
the clause is never removed, each clause's processed flag only ever
transitions false→true, and the number of clauses is monotonically
non-decreasing from one step to the next. -/
theorem proof_state_append_only {m : Nat} {st st' : ProofState}
    (h : Reachable m st st') : Extends st.clauses st'.clauses := by
  induction h with
  | refl => exact Extends.refl _
  | tail hr hs ih => exact ih.trans (step_extends hs)

theorem list_set_same {α : Type} {l : List α} {i : Nat} {a : α}
    (h : l[i]? = some a) : l.set i a = l := by
  apply List.ext_getElem?
  intro j
  by_cases hj : i = j
  · subst hj
    rw [List.getElem?_set_self (lt_length_of_getElem?_some h)]
    exact h.symm
  · rw [List.getElem?_set_ne hj]

theorem labels_markProcessed (cs : List Clause) (i : Nat) :
    labels (markProcessed cs i) = labels cs := by
  unfold markProcessed
  cases hj : cs[i]? with
  | none => rfl
  | some c =>
    unfold labels
    rw [List.map_set]
    apply list_set_same
    rw [List.getElem?_map, hj]
    rfl

theorem appendClause_labels {st st' : ProofState} {w : WireClause}
    (h : appendClause st w = Except.ok st') :
    labels st'.clauses = labels st.clauses ++ [w.label] ∧
    w.label ∉ labels st.clauses := by
  unfold appendClause at h
  split at h
  · cases h
  · cases h
    exact ⟨by unfold labels; rw [List.map_append]; rfl, by assumption⟩

theorem appendClause_nodup {st st' : ProofState} {w : WireClause}
    (hnd : (labels st.clauses).Nodup) (h : appendClause st w = Except.ok st') :
    (labels st'.clauses).Nodup := by
  obtain ⟨heq, hmem⟩ := appendClause_labels h
  rw [heq]
  refine List.Nodup.append hnd (List.nodup_singleton _) ?_
  intro x hx hx'
  rw [List.mem_singleton] at hx'
  subst hx'
  exact hmem hx

theorem appendAll_nodup {ws : List WireClause} :
    ∀ {st st' : ProofState}, (labels st.clauses).Nodup →
      appendAll st ws = Except.ok st' → (labels st'.clauses).Nodup := by
  induction ws with
  | nil =>
    intro st st' hnd h
    rw [appendAll, List.foldlM_nil] at h
    cases h
    exact hnd
  | cons w ws ih =>
    intro st st' hnd h
    rw [appendAll, List.foldlM_cons] at h
    obtain ⟨st1, hac, hrest⟩ := except_bind_ok h
    exact ih (appendClause_nodup hnd hac) hrest

theorem step_labels_nodup {m a : Nat} {st : ProofState} {inc : Increment}
    {r : StepResult} (hnd : (labels st.clauses).Nodup)
    (h : step m st a inc = Except.ok r) : (labels r.state.clauses).Nodup := by
  obtain ⟨-, st2, happ, rfl⟩ := step_ok_iff.mp h
  have h2 := @appendAll_nodup inc.newClauses
    { st with step_count := st.step_count + 1 } st2 hnd happ
  show (labels (markProcessed st2.clauses a)).Nodup
  rw [labels_markProcessed]
  exact h2

theorem reset_labels_nodup {m : Nat} {initial : List WireClause}
    {p : ProofState × Observation} (h : reset m initial = Except.ok p) :
    (labels p.1.clauses).Nodup := by
  obtain ⟨st0, happ, rfl⟩ := reset_ok_iff.mp h
  exact appendAll_nodup (by simp [labels]) happ

theorem reachable_labels_nodup {m : Nat} {st st' : ProofState}
    (hnd : (labels st.clauses).Nodup) (h : Reachable m st st') :
    (labels st'.clauses).Nodup := by
  induction h with
  | refl => exact hnd
  | tail hr hs ih => exact step_labels_nodup ih hs

/-- C7: within every episode (any state reachable from a `reset`), the
labels of all clauses in the proof state are pairwise distinct, and
`append` rejects a clause whose label duplicates an existing one as a
fatal invariant violation rather than inserting it. -/
theorem labels_unique_spec (m : Nat) :
    (∀ initial p st', reset m initial = Except.ok p → Reachable m p.1 st' →
      (labels st'.clauses).Nodup) ∧
    (∀ (st : ProofState) (w : WireClause), w.label ∈ labels st.clauses →
      appendClause st w = Except.error EnvError.duplicateLabel) := by
  constructor
  · intro initial p st' hres hreach
    exact reachable_labels_nodup (reset_labels_nodup hres) hreach
  · intro st w hmem
    unfold appendClause
    rw [if_pos hmem]

/-- C4: for every call to `step`, the returned `truncated` flag is true
iff the total clause count (after incorporating this step's increment)
exceeds the configured capacity `max_clauses`, or the backend signalled
that a bounded wait timed out; moreover a step that is not terminated
carries reward 0.0, so a capacity-bound episode ends with
`truncated = true, terminated = false, reward = 0.0`. -/
theorem step_truncated_iff {m a : Nat} {st : ProofState} {inc : Increment}
    {r : StepResult} (h : step m st a inc = Except.ok r) :
    (r.truncated = true ↔ r.state.clauses.length > m ∨ inc.timeout = true) ∧
    (r.terminated = false → r.reward = 0) := by
  obtain ⟨-, st2, -, rfl⟩ := step_ok_iff.mp h
  constructor
  · simp [finishStep]
  · simp only [finishStep]
    cases hasEmptyClause (markProcessed st2.clauses a)
        || allProcessed (markProcessed st2.clauses a) <;> simp

theorem processedCount_le_length (cs : List Clause) :
    processedCount cs ≤ cs.length :=
  List.countP_le_length _

theorem getD_true_getElem? {l : List Bool} {i : Nat}
    (h : l.getD i false = true) : l[i]? = some true := by
  rw [List.getD_eq_getElem?_getD] at h
  cases hi : l[i]? with
  | none => rw [hi] at h; cases h
  | some b =>
    rw [hi] at h
    simp only [Option.getD_some] at h
    rw [h]

theorem appendClause_entry {st st' : ProofState} {w : WireClause}
    (h : appendClause st w = Except.ok st') {i : Nat} {c : Clause}
    (hc : st.clauses[i]? = some c) : st'.clauses[i]? = some c := by
  unfold appendClause at h
  split at h
  · cases h
  · cases h
    rw [List.getElem?_append_left (lt_length_of_getElem?_some hc)]
    exact hc

theorem appendAll_entry {ws : List WireClause} :
    ∀ {st st' : ProofState}, appendAll st ws = Except.ok st' →
      ∀ {i : Nat} {c : Clause}, st.clauses[i]? = some c →
        st'.clauses[i]? = some c := by
  induction ws with
  | nil =>
    intro st st' h i c hc
    rw [appendAll, List.foldlM_nil] at h
    cases h
    exact hc
  | cons w ws ih =>
    intro st st' h i c hc
    rw [appendAll, List.foldlM_cons] at h
    obtain ⟨st1, hac, hrest⟩ := except_bind_ok h
    exact ih hrest (appendClause_entry hac hc)

theorem appendClause_processedCount {st st' : ProofState} {w : WireClause}
    (h : appendClause st w = Except.ok st') :
    processedCount st'.clauses = processedCount st.clauses := by
  unfold appendClause at h
  split at h
  · cases h
  · cases h
    unfold processedCount
    rw [List.countP_append]
    simp [List.countP_cons]

theorem appendAll_processedCount {ws : List WireClause} :
    ∀ {st st' : ProofState}, appendAll st ws = Except.ok st' →
      processedCount st'.clauses = processedCount st.clauses := by
  induction ws with
  | nil =>
    intro st st' h
    rw [appendAll, List.foldlM_nil] at h
    cases h
    rfl
  | cons w ws ih =>
    intro st st' h
    rw [appendAll, List.foldlM_cons] at h
    obtain ⟨st1, hac, hrest⟩ := except_bind_ok h
    rw [ih hrest, appendClause_processedCount hac]

theorem countP_set_true :
    ∀ (cs : List Clause) (i : Nat) (c : Clause), cs[i]? = some c →
      c.processed = false →
      processedCount (cs.set i { c with processed := true })
        = processedCount cs + 1 := by
  intro cs
  induction cs with
  | nil => intro i c h hp; simp at h
  | cons hd tl ih =>
    intro i c h hp
    cases i with
    | zero =>
      simp only [List.getElem?_cons_zero, Option.some.injEq] at h
      subst h
      simp [List.set_cons_zero, processedCount, List.countP_cons, hp]
    | succ n =>
      simp only [List.getElem?_cons_succ] at h
      have hrec := ih n c h hp
      rw [List.set_cons_succ]
      unfold processedCount at hrec ⊢
      rw [List.countP_cons, List.countP_cons, hrec]
      omega

theorem processedCount_markProcessed {cs : List Clause} {i : Nat} {c : Clause}
    (h : cs[i]? = some c) (hp : c.processed = false) :
    processedCount (markProcessed cs i) = processedCount cs + 1 := by
  unfold markProcessed
  rw [h]
  exact countP_set_true cs i c h hp

/-- Each successful `step` marks exactly one previously-unprocessed clause
as processed (the newly appended clauses all arrive unprocessed). -/
theorem step_processedCount {m a : Nat} {st : ProofState} {inc : Increment}
    {r : StepResult} (h : step m st a inc = Except.ok r) :
    processedCount r.state.clauses = processedCount st.clauses + 1 := by
  obtain ⟨hmask, st2, happ, rfl⟩ := step_ok_iff.mp h
  have hm' : (actionMask st.clauses m)[a]? = some true := getD_true_getElem? hmask
  obtain ⟨c, hc, hcp⟩ := (actionMask_getElem? hm').mp rfl
  have hc2 : st2.clauses[a]? = some c :=
    @appendAll_entry inc.newClauses
      { st with step_count := st.step_count + 1 } st2 happ a c hc
  show processedCount (markProcessed st2.clauses a) = processedCount st.clauses + 1
  rw [processedCount_markProcessed hc2 hcp,
    @appendAll_processedCount inc.newClauses
      { st with step_count := st.step_count + 1 } st2 happ]

theorem terminated_false_processedCount {m a : Nat} {st : ProofState}
    {inc : Increment} {r : StepResult} (h : step m st a inc = Except.ok r)
    (ht : r.terminated = false) :
    processedCount r.state.clauses < r.state.clauses.length := by
  obtain ⟨-, st2, -, rfl⟩ := step_ok_iff.mp h
  simp only [finishStep, Bool.or_eq_false_iff] at ht
  have hap : allProcessed (markProcessed st2.clauses a) = false := ht.2
  have hne : processedCount (markProcessed st2.clauses a)
      ≠ (markProcessed st2.clauses a).length := by
    intro heq
    have hall : allProcessed (markProcessed st2.clauses a) = true := by
      unfold allProcessed
      rw [List.all_eq_true]
      intro x hx
      exact List.countP_eq_length.mp heq x hx
    rw [hall] at hap
    cases hap
  exact Nat.lt_of_le_of_ne (processedCount_le_length _) hne

theorem truncated_false_length {m a : Nat} {st : ProofState} {inc : Increment}
    {r : StepResult} (h : step m st a inc = Except.ok r)
    (ht : r.truncated = false) : r.state.clauses.length ≤ m := by
  obtain ⟨-, st2, -, rfl⟩ := step_ok_iff.mp h
  simp only [finishStep, Bool.or_eq_false_iff, decide_eq_false_iff_not,
    Nat.not_lt] at ht
  exact ht.1

theorem reset_processedCount {m : Nat} {initial : List WireClause}
    {p : ProofState × Observation} (h : reset m initial = Except.ok p) :
    processedCount p.1.clauses = 0 := by
  obtain ⟨st0, happ, rfl⟩ := reset_ok_iff.mp h
  rw [@appendAll_processedCount initial { clauses := [], step_count := 0 } st0 happ]
  rfl

theorem runNonstop_processedCount {m : Nat} {st st' : ProofState} {k : Nat}
    (h : RunNonstop m st st' k) :
    processedCount st'.clauses = processedCount st.clauses + k := by
  induction h with
  | refl => rfl
  | tail hr hs hterm htrunc ih =>
    rw [step_processedCount hs, ih]
    omega

/-- C10: every episode ends after at most `max_clauses` calls to `step`:
each successful step marks one previously-unprocessed clause as processed
and processed flags never revert, so a nonempty run of steps on which the
episode has neither terminated (no unprocessed clauses remain or the empty
clause appeared) nor been truncated by the clause-count bound has length
strictly below `max_clauses` — before exceeding `max_clauses` calls the
episode has ended. -/
theorem episode_step_bound {m : Nat} {initial : List WireClause}
    {p : ProofState × Observation} {st' : ProofState} {k : Nat}
    (hres : reset m initial = Except.ok p)
    (hrun : RunNonstop m p.1 st' k) (hk : 0 < k) : k < m := by
  have h0 : processedCount p.1.clauses = 0 := reset_processedCount hres
  cases hrun with
  | refl => omega
  | tail hr hs hterm htrunc =>
    have hc := runNonstop_processedCount (RunNonstop.tail hr hs hterm htrunc)
    have hlt := terminated_false_processedCount hs hterm
    have hle := truncated_false_length hs htrunc
    omega

theorem brokerRun_recv_le {evs : List BrokerEvent} :
    ∀ {st st' : BrokerState}, brokerRun st evs = Except.ok st' →
      countRecv evs ≤ countSend evs + (if st.pending.isSome then 0 else 1) := by
  induction evs with
  | nil =>
    intro st st' h
    simp only [countRecv, countSend, List.countP_nil]
    omega
  | cons e evs ih =>
    intro st st' h
    rw [brokerRun, List.foldlM_cons] at h
    obtain ⟨st1, h1, hrest⟩ := except_bind_ok h
    have hiv := ih (show brokerRun st1 evs = Except.ok st' from hrest)
    obtain ⟨p⟩ := st
    cases e with
    | recv q =>
      cases p with
      | some q0 => simp [brokerStep] at h1
      | none =>
        simp only [brokerStep, Except.ok.injEq] at h1
        subst h1
        simp only [countRecv, countSend, List.countP_cons] at hiv ⊢
        simp only [Option.isSome_some, Option.isSome_none] at hiv ⊢
        simp at hiv ⊢
        omega
    | send a =>
      cases p with
      | none => simp [brokerStep] at h1
      | some q0 =>
        simp only [brokerStep, Except.ok.injEq] at h1
        subst h1
        simp only [countRecv, countSend, List.countP_cons] at hiv ⊢
        simp at hiv ⊢
        omega

/-- C8: in the `RelayBroker`, whenever a second request arrives on the
accepted connection before the response to the prior request has been
sent, a `ProtocolViolation` is raised; and along any successfully
processed trace the broker never holds two pending requests at once (the
number of requests received never exceeds the number of responses sent
plus one). -/
theorem relay_broker_protocol :
    (∀ (q q' : BrokerRequest),
      brokerStep { pending := some q } (BrokerEvent.recv q') =
        Except.error BrokerError.protocolViolation) ∧
    (∀ (evs : List BrokerEvent) (st' : BrokerState),
      brokerRun { pending := none } evs = Except.ok st' →
        countRecv evs ≤ countSend evs + 1) := by
  constructor
  · intro q q'
    rfl
  · intro evs st' h
    have hiv := brokerRun_recv_le h
    simpa using hiv

theorem splitFirst_append (sep : Char) :
    ∀ (a b : List Char), sep ∉ a → splitFirst sep (a ++ sep :: b) = some (a, b) := by
  intro a
  induction a with
  | nil => intro b h; simp [splitFirst]
  | cons x xs ih =>
    intro b h
    have hx : ¬ x = sep := fun he => h (he ▸ List.mem_cons_self x xs)
    simp [splitFirst, hx, ih b fun hm => h (List.mem_cons_of_mem x hm)]

theorem stripPre_append (p r : List Char) : stripPre p (p ++ r) = some r := by
  unfold stripPre
  rw [if_pos (List.take_left p r), List.drop_left]

theorem stripSuf_append (s m : List Char) : stripSuf s (m ++ s) = some m := by
  unfold stripSuf
  have hlen : (m ++ s).length - s.length = m.length := by
    rw [List.length_append]
    omega
  rw [hlen]
  rw [if_pos ⟨by rw [List.length_append]; omega, List.drop_left m s⟩,
    List.take_left]

theorem parseLine_renderLine {c : Clause} (hl : ',' ∉ c.label.data)
    (hr : ',' ∉ c.role.data) :
    parseLine (renderLineChars c) = some (c.label, c.literals, c.role) := by
  have hmid : c.label.data ++ ',' ::
        (c.role.data ++ ',' :: (c.literals.data ++ ").".data))
      = (c.label.data ++ ',' :: (c.role.data ++ ',' :: c.literals.data))
          ++ ").".data := by
    simp [List.append_assoc]
  unfold parseLine renderLineChars
  rw [stripPre_append, hmid]
  simp only [Option.bind_eq_bind, Option.some_bind]
  rw [stripSuf_append]
  simp only [Option.some_bind]
  rw [splitFirst_append ',' c.label.data _ hl]
  simp only [Option.some_bind]
  rw [splitFirst_append ',' c.role.data _ hr]
  simp only [Option.some_bind]
  rfl

theorem splitLines_ne_nil : ∀ (l : List Char), splitLines l ≠ [] := by
  intro l
  induction l with
  | nil => simp [splitLines]
  | cons c cs ih =>
    unfold splitLines
    cases h : splitLines cs with
    | nil => simp
    | cons a as => by_cases hc : c = '\n' <;> simp [hc]

theorem splitLines_append (a : List Char) (h : '\n' ∉ a) (b : List Char) :
    splitLines (a ++ '\n' :: b) = a :: splitLines b := by
  induction a with
  | nil =>
    simp only [List.nil_append]
    rw [splitLines]
    cases hs : splitLines b with
    | nil => exact absurd hs (splitLines_ne_nil b)
    | cons l ls => simp
  | cons x xs ih =>
    have hx : ¬ x = '\n' := fun he => h (he ▸ List.mem_cons_self x xs)
    have hxs : '\n' ∉ xs := fun hm => h (List.mem_cons_of_mem x hm)
    simp only [List.cons_append]
    rw [splitLines, ih hxs]
    simp [hx]

theorem renderLineChars_no_newline {c : Clause} (h : RenderSafe c) :
    '\n' ∉ renderLineChars c := by
  obtain ⟨-, -, h1, h2, h3⟩ := h
  unfold renderLineChars
  intro hm
  simp only [List.mem_append, List.mem_cons] at hm
  rcases hm with hA | hB
  · exact absurd hA (by decide)
  · rcases hB with hB | hB | hB
    · exact h1 hB
    · exact absurd hB (by decide)
    · rcases hB with hB | hB | hB
      · exact h2 hB
      · exact absurd hB (by decide)
      · rcases hB with hB | hB
        · exact h3 hB
        · exact absurd hB (by decide)

theorem parseLines_render (cs : List Clause) (h : ∀ c ∈ cs, RenderSafe c) :
    parseLines (splitLines (renderChars cs)).dropLast
      = some (cs.map fun c => (c.label, c.literals, c.role)) := by
  induction cs with
  | nil => rfl
  | cons c cs ih =>
    have hc := h c (List.mem_cons_self c cs)
    have hcs : ∀ x ∈ cs, RenderSafe x := fun x hx => h x (List.mem_cons_of_mem c hx)
    have hnew : '\n' ∉ renderLineChars c := renderLineChars_no_newline hc
    show parseLines
        (splitLines ((renderLineChars c ++ ['\n']) ++ renderChars cs)).dropLast
      = _
    rw [List.append_assoc, List.singleton_append,
      splitLines_append _ hnew,
      List.dropLast_cons_of_ne_nil (splitLines_ne_nil _)]
    simp only [parseLines, Option.bind_eq_bind]
    rw [parseLine_renderLine hc.1 hc.2.1]
    simp only [Option.some_bind]
    rw [ih hcs]
    rfl

theorem markProcessed_map {β : Type} (f : Clause → β)
    (hf : ∀ c, f { c with processed := true } = f c)
    (cs : List Clause) (i : Nat) : (markProcessed cs i).map f = cs.map f := by
  unfold markProcessed
  cases hj : cs[i]? with
  | none => rfl
  | some c =>
    rw [List.map_set, hf]
    apply list_set_same
    rw [List.getElem?_map, hj]
    rfl

theorem renderChars_markProcessed (cs : List Clause) (i : Nat) :
    renderChars (markProcessed cs i) = renderChars cs := by
  unfold renderChars
  rw [markProcessed_map (fun c => renderLineChars c ++ ['\n']) (fun c => rfl) cs i]

/-- C9: rendering a proof state whose clause fields respect the documented
character sets and re-parsing the rendered text yields exactly the state's
list of `(label, literals, role)` triples in insertion order (hence the
same set), and the rendering does not depend on which clauses are marked
processed. -/
theorem render_parse_round_trip (st : ProofState)
    (h : ∀ c ∈ st.clauses, RenderSafe c) :
    parse (render st)
      = some (st.clauses.map fun c => (c.label, c.literals, c.role)) ∧
    (∀ i : Nat,
      render { st with clauses := markProcessed st.clauses i } = render st) := by
  constructor
  · exact parseLines_render st.clauses h
  · intro i
    unfold render
    show String.mk (renderChars (markProcessed st.clauses i)) = _
    rw [renderChars_markProcessed]

/-! ## Concrete evaluations of the claim theorems -/

theorem step_terminated_iff_witness :
    sampleRes.terminated = true ↔
      (∃ c ∈ sampleRes.state.clauses, c.literals = "") ∨
      (∀ c ∈ sampleRes.state.clauses, c.processed = true) := by
  have hs : step 3 sampleSt 0 sampleInc = Except.ok sampleRes := by rfl
  exact step_terminated_iff hs

theorem step_reward_iff_witness :
    (sampleRes.reward = 1 ↔ sampleRes.terminated = true) ∧
    (sampleRes.reward = 0 ↔ sampleRes.terminated = false) := by
  have hs : step 3 sampleSt 0 sampleInc = Except.ok sampleRes := by rfl
  exact step_reward_iff hs

theorem observation_action_mask_spec_witness :
    true = true ↔ ∃ c : Clause, sampleRes.state.clauses[1]? = some c ∧
      c.processed = false := by
  have hs : step 3 sampleSt 0 sampleInc = Except.ok sampleRes := by rfl
  have hb : sampleRes.observation.action_mask[1]? = some true := by rfl
  exact (observation_action_mask_spec 3).1 sampleSt 0 sampleInc sampleRes hs 1
    true hb

theorem step_truncated_iff_witness :
    ((truncRes.truncated = true ↔ truncRes.state.clauses.length > 2 ∨
        sampleInc.timeout = true) ∧
      (truncRes.terminated = false → truncRes.reward = 0)) ∧
    truncRes.truncated = true ∧ truncRes.terminated = false ∧
      truncRes.reward = 0 := by
  have hs : step 2 truncSt 0 sampleInc = Except.ok truncRes := by rfl
  exact ⟨step_truncated_iff hs, by decide, by decide, by decide⟩

theorem step_invalidAction_witness :
    step 2 invSt 0 sampleInc = Except.error EnvError.invalidAction ∧
    stateAfter 2 invSt 0 sampleInc = invSt ∧
    (stateAfter 2 invSt 0 sampleInc).clauses.length = invSt.clauses.length := by
  have h : (actionMask invSt.clauses 2)[0]? = some false := by rfl
  exact step_invalidAction h

theorem proof_state_append_only_witness :
    Extends sampleSt.clauses sampleRes.state.clauses := by
  have hs : step 3 sampleSt 0 sampleInc = Except.ok sampleRes := by rfl
  exact proof_state_append_only (Reachable.tail (Reachable.refl sampleSt) hs)

theorem labels_unique_spec_witness :
    (labels sampleRes.state.clauses).Nodup ∧
    appendClause sampleSt wDup = Except.error EnvError.duplicateLabel := by
  have hres : reset 3 [wInit] = Except.ok (sampleSt, resetObs) := by rfl
  have hs : step 3 sampleSt 0 sampleInc = Except.ok sampleRes := by rfl
  exact ⟨(labels_unique_spec 3).1 [wInit] (sampleSt, resetObs) sampleRes.state
      hres (Reachable.tail (Reachable.refl sampleSt) hs),
    (labels_unique_spec 3).2 sampleSt wDup (by decide)⟩

theorem relay_broker_protocol_witness :
    brokerStep { pending := some q0 } (BrokerEvent.recv q0) =
      Except.error BrokerError.protocolViolation ∧
    countRecv [BrokerEvent.recv q0, BrokerEvent.send a0]
      ≤ countSend [BrokerEvent.recv q0, BrokerEvent.send a0] + 1 :=
  ⟨relay_broker_protocol.1 q0 q0,
    relay_broker_protocol.2 [BrokerEvent.recv q0, BrokerEvent.send a0]
      { pending := none } (by rfl)⟩

theorem render_parse_round_trip_witness :
    parse (render sampleSt)
      = some (sampleSt.clauses.map fun c => (c.label, c.literals, c.role)) :=
  (render_parse_round_trip sampleSt (by decide)).1

theorem episode_step_bound_witness : (1 : Nat) < 3 := by
  have hres : reset 3 [wInit] = Except.ok (sampleSt, resetObs) := by rfl
  have hs : step 3 sampleSt 0 sampleInc = Except.ok sampleRes := by rfl
  exact episode_step_bound hres
    (RunNonstop.tail (RunNonstop.refl sampleSt) hs (by rfl) (by rfl))
    (by decide)

end GymSaturation
